import Mathlib

/-!
Verification of the Emperfect assertion-parsing / instrumentation-generation
engine against its specification.

Strings are embedded as `List Char`. The C++ sources embedded here are
`Testcase.hpp` (class `Testcase`) and `CheckInfo.hpp` (classes `CheckString`
and `CheckInfo`). Helper routines from the external Empirical library
(`emp::find_any_of`, `emp::find_paren_match`, `emp::compress_whitespace`,
`std::string::find`) are not part of this repository's sources; they are
modelled from the spec's description of their behavior, as noted on each
definition.
-/

deriving instance DecidableEq for Except

/-- Whitespace test used by the Empirical string utilities: space, newline,
tab and carriage return count as whitespace. -/
def isWsChar (c : Char) : Bool :=
  c = ' ' || c = '\n' || c = '\t' || c = '\r'

/-- Scanner for `emp::compress_whitespace`: walks the string keeping a
"last character was whitespace" flag, emitting a single space for each
whitespace run that follows a non-whitespace character. -/
def cwsGo : List Char → Bool → List Char
  | [], _ => []
  | c :: r, lastWs =>
    if isWsChar c then
      if lastWs then cwsGo r true else ' ' :: cwsGo r true
    else c :: cwsGo r false

/-- Modelled from the spec: `emp::compress_whitespace` (Empirical library,
not in src): consecutive whitespace is collapsed to one space and
leading/trailing whitespace is trimmed. -/
def compressWs (l : List Char) : List Char :=
  let m := cwsGo l true
  match m.reverse with
  | ' ' :: r => r.reverse
  | _ => m

/-- Auxiliary scanner for `std::string::find`: try positions `start`,
`start+1`, ... for `rem` steps, returning the first position where `pat`
occurs as a prefix of the remaining suffix. -/
def strFindAux (s pat : List Char) : Nat → Nat → Option Nat
  | _, 0 => none
  | start, rem + 1 =>
    if pat.isPrefixOf (s.drop start) then some start
    else strFindAux s pat (start + 1) (rem)

/-- Model of `std::string::find(pat, start)`: the least position `j ≥ start`
at which `pat` occurs in `s` (the whole occurrence lying inside `s`), or
`none` (C++ `npos`) if there is no such position or `start > s.length`. -/
def strFindFrom (s pat : List Char) (start : Nat) : Option Nat :=
  strFindAux s pat start (s.length + 1 - start)

/-- Minimum of two optional positions, where `none` plays the role of the
C++ `npos` sentinel (larger than every position). -/
def optMin : Option Nat → Option Nat → Option Nat
  | none, b => b
  | some a, none => some a
  | some a, some b => some (min a b)

/-- Modelled from the spec: `emp::find_any_of` (Empirical library, not in
src) returns the smallest position at or after `start` where any of the
pattern strings occurs, i.e. the minimum of the individual `find` results
with `npos` as the neutral element. -/
def findAnyOf (s : List Char) (start : Nat) (pats : List (List Char)) : Option Nat :=
  pats.foldr (fun p acc => optMin (strFindFrom s p start) acc) none

/-- Depth-counting scanner: `parenScan l idx depth` walks `l` (whose first
element sits at absolute index `idx`) with current parenthesis depth
`depth`, returning the absolute index of the `')'` that brings the depth
to zero. -/
def parenScan : List Char → Nat → Nat → Option Nat
  | [], _, _ => none
  | c :: rest, idx, depth =>
    if c = '(' then parenScan rest (idx + 1) (depth + 1)
    else if c = ')' then
      if depth = 1 then some idx else parenScan rest (idx + 1) (depth - 1)
    else parenScan rest (idx + 1) depth

/-- Modelled from the spec (section 4.2 step 2): `emp::find_paren_match`
(Empirical library, not in src) finds the balanced matching closing
parenthesis by depth-counting, assuming `s[start] = '('` (which holds at
every use below, since `start` points at the `'('` of a matched
`CHECK(`). `none` models the C++ fallback of returning `start_pos` when
no match exists; the caller reproduces the C++ arithmetic for that case. -/
def findParenMatch (s : List Char) (start : Nat) : Option Nat :=
  parenScan (s.drop (start + 1)) (start + 1) 1

/-- Balance check used to state well-formedness of an assertion body: `bal
l d` holds when, starting from open-parenthesis depth `d`, the depth never
drops below zero and ends at zero. -/
def bal : List Char → Nat → Bool
  | [], d => d == 0
  | c :: r, d =>
    if c = '(' then bal r (d + 1)
    else if c = ')' then
      if d == 0 then false else bal r (d - 1)
    else bal r d

/-- Errors raised during assertion parsing (the spec's definition-error
taxonomy for the parser, realized in C++ through `emp::notify::TestError`
and `std::string::at`). -/
inductive ParseErr where
  | MalformedAssertion
  | MultipleComparators
  | OutOfRange
deriving DecidableEq

/-- Parsed information about a given check, from class `CheckString` in
CheckInfo.hpp: the raw test string, left-hand side, comparator and
right-hand side. -/
structure CheckString where
  test : List Char
  lhs : List Char
  comparator : List Char
  rhs : List Char
deriving DecidableEq

/-- The two disallowed boolean operators scanned for first by the
`CheckString` constructor. -/
def boolOpPats : List (List Char) := ["&&".toList, "||".toList]

/-- The comparator candidate patterns, in the order they are passed to
`emp::find_any_of` in the `CheckString` constructor. -/
def comparatorPats : List (List Char) :=
  ["==".toList, "!=".toList, "<".toList, "<=".toList, ">".toList, ">=".toList]

/-- Model of the constructor `CheckString::CheckString(test, file_pos)`
from CheckInfo.hpp. It errors (via `emp::notify::TestError`) when the
string contains `&&` or `||`, errors when a second comparator is found by
scanning again from two characters past the start of the first one, and
otherwise splits the string at the comparator; `test.at(comp_pos+1)` is a
bounds-checked access, modelled by the `OutOfRange` error. With no
comparator, `lhs` is the raw test string and the other fields stay empty. -/
def CheckString.parse (test : List Char) : Except ParseErr CheckString :=
  if (findAnyOf test 0 boolOpPats).isSome then .error .MalformedAssertion
  else
    match findAnyOf test 0 comparatorPats with
    | some comp_pos =>
      if (findAnyOf test (comp_pos + 2) comparatorPats).isSome then
        .error .MultipleComparators
      else if comp_pos + 1 < test.length then
        let c1 := test.getD comp_pos ' '
        let comparator := if test.getD (comp_pos + 1) ' ' = '=' then [c1, '='] else [c1]
        .ok ⟨test, compressWs (test.take comp_pos), comparator,
             compressWs (test.drop (comp_pos + comparator.length))⟩
      else .error .OutOfRange
    | none => .ok ⟨test, test, [], []⟩

/-- Location label built in `Testcase::ProcessChecks`:
`emp::to_string("Test #", id, ", Check #", check_id)`. -/
def locationStr (tcid cid : Nat) : List Char :=
  "Test #".toList ++ (Nat.repr tcid).toList ++ ", Check #".toList ++ (Nat.repr cid).toList

/-- Per-check bookkeeping object, from struct `CheckInfo` in CheckInfo.hpp
(`passed` and `resolved` default to false). The `location` and `id` fields
correspond to the `emplace_back(check_body, location, check_id)` call in
`Testcase::ProcessChecks`; that constructor overload of `CheckInfo` is not
in src and is modelled from the spec's Check Record (`locationLabel`,
`sequenceId`). -/
structure CheckInfo where
  test : CheckString
  location : List Char
  id : Nat
  passed : Bool := false
  resolved : Bool := false
deriving DecidableEq

/-- Model of class `Testcase` from Testcase.hpp, with the same fields and
C++ default member initializers (default-constructed strings become `[]`,
`points` and `score` are modelled as rationals since only selection, never
floating-point arithmetic, is performed on them). -/
structure Testcase where
  name : List Char := []
  id : Nat
  points : Rat := 0
  input_filename : List Char := []
  expect_filename : List Char := []
  code_filename : List Char := []
  args : List Char := []
  cpp_filename : List Char := []
  compile_filename : List Char := []
  exe_filename : List Char := []
  output_filename : List Char := []
  error_filename : List Char := []
  result_filename : List Char := []
  call_main : Bool := true
  hidden : Bool := false
  match_case : Bool := true
  match_space : Bool := true
  timeout : Nat := 5
  code : List (List Char) := []
  processed_code : List Char := []
  filename : List Char := []
  start_line : Nat := 0
  end_line : Nat := 0
  checks : List CheckInfo := []
  compile_exit_code : Int := -1
  run_exit_code : Int := -1
  output_match : Bool := true
  hit_timeout : Bool := false
  score : Rat := 0
deriving DecidableEq

/-- Model of `Testcase::CountPassed`: how many checks have `passed` set. -/
def Testcase.CountPassed (tc : Testcase) : Nat :=
  tc.checks.countP (fun c => c.passed)

/-- Model of `Testcase::CountFailed`. -/
def Testcase.CountFailed (tc : Testcase) : Nat :=
  tc.checks.countP (fun c => !c.passed)

/-- Model of `Testcase::Passed()`:
`CountPassed() == checks.size() && output_match && !hit_timeout && !compile_exit_code`
(where `!compile_exit_code` is the C++ int-to-bool conversion, i.e.
`compile_exit_code == 0`). -/
def Testcase.Passed (tc : Testcase) : Bool :=
  (tc.CountPassed == tc.checks.length) && tc.output_match && !tc.hit_timeout
    && (tc.compile_exit_code == 0)

/-- Loop body of `Testcase::Passed(size_t test_id)`: return the `passed`
flag of the first check whose `id` matches, and `true` when none does. -/
def passedAtChecks (checks : List CheckInfo) (test_id : Nat) : Bool :=
  match checks with
  | [] => true
  | c :: r => if c.id = test_id then c.passed else passedAtChecks r test_id

/-- Model of the overload `Testcase::Passed(size_t test_id)`. -/
def Testcase.PassedAt (tc : Testcase) (test_id : Nat) : Bool :=
  passedAtChecks tc.checks test_id

/-- Model of `Testcase::EarnedPoints()`: `Passed() ? points : 0.0`. -/
def Testcase.EarnedPoints (tc : Testcase) : Rat :=
  if tc.Passed then tc.points else 0

/-- Outcome message chosen by `Testcase::PrintResult_Success` (the same
string is used by both the HTML and the plain rendering branch). -/
def Testcase.resultMessage (tc : Testcase) : String :=
  if tc.Passed = true then "PASSED!"
  else if tc.compile_exit_code ≠ 0 then "FAILED during compilation."
  else if tc.hit_timeout = true then "FAILED due to timeout."
  else if tc.output_match = false then "FAILED due to mis-matched output."
  else "FAILED due to unsuccessful check."

/-- Definition error raised at the start of `Testcase::GenerateCPP` via
`emp::notify::TestError` when both a code filename and in-place code are
provided. -/
inductive GenErr where
  | ConflictingCodeSource
deriving DecidableEq

/-- Model of the code-source resolution block at the start of
`Testcase::GenerateCPP`: when `code_filename` is nonempty it is an error
for `code` to be nonempty too, otherwise the file's lines (passed in here
as `file_lines`, since file I/O is not modelled) become the code; when
`code_filename` is empty the in-place `code` is used as is, with no check
that it is nonempty. -/
def Testcase.resolveCode (tc : Testcase) (file_lines : List (List Char)) :
    Except GenErr (List (List Char)) :=
  if tc.code_filename.length ≠ 0 then
    if tc.code.length ≠ 0 then .error .ConflictingCodeSource
    else .ok file_lines
  else .ok tc.code

/-- The assertion-invocation marker scanned for by `Testcase::ProcessChecks`. -/
def checkMark : List Char := "CHECK(".toList

/-- Model of the loop of `Testcase::ProcessChecks`, with explicit fuel (the
C++ loop terminates because the cursor strictly advances; the wrapper below
passes more fuel than the loop can ever consume). State: the string `s`
(`processed_code`), cursor `check_end`, and running counter `check_id`.
Each iteration finds the next `CHECK(` at `check_pos`, copies
`s.substr(check_end, check_pos - check_end)` to the output, isolates the
check body up to the balanced closing parenthesis, advances the cursor two
characters past that parenthesis (past the assumed `");"`), constructs a
`CheckInfo` (whose `CheckString` constructor may raise a definition error,
modelled by the `Except`), and appends its generated instrumentation
`toCPP` (the `CheckInfo::ToCPP` method is not in src, so the
instrumentation text is taken as a parameter). When `find_paren_match`
finds no match it returns its start position, making the C++ `size_t`
length `check_end - check_pos - 6` wrap to `npos`: the body is then the
whole rest of the string and the cursor lands at `check_pos + 7`. -/
def processLoop (toCPP : CheckInfo → List Char) (tcid : Nat) :
    Nat → List Char → Nat → Nat → Except ParseErr (List Char × List CheckInfo)
  | 0, s, check_end, _ => .ok (s.drop check_end, [])
  | fuel + 1, s, check_end, check_id =>
    match strFindFrom s checkMark check_end with
    | none => .ok (s.drop check_end, [])
    | some check_pos =>
      let seg := (s.drop check_end).take (check_pos - check_end)
      let pm := findParenMatch s (check_pos + 5)
      let check_body :=
        match pm with
        | some m => (s.drop (check_pos + 6)).take (m - (check_pos + 6))
        | none => s.drop (check_pos + 6)
      let new_end :=
        match pm with
        | some m => m + 2
        | none => check_pos + 7
      match CheckString.parse check_body with
      | .error e => .error e
      | .ok cs =>
        let info : CheckInfo := { test := cs, location := locationStr tcid check_id, id := check_id }
        match processLoop toCPP tcid fuel s new_end (check_id + 1) with
        | .error e => .error e
        | .ok (out, cks) => .ok (seg ++ toCPP info ++ out, info :: cks)

/-- Model of `Testcase::ProcessChecks` applied to a processed-code string:
returns the rewritten output text together with the check list appended to
`checks`, or the definition error that aborted generation. -/
def processChecks (toCPP : CheckInfo → List Char) (tcid : Nat) (s : List Char) :
    Except ParseErr (List Char × List CheckInfo) :=
  processLoop toCPP tcid (s.length + 1) s 0 0

/-- Shape of a processed-code string as a sequence of check invocations:
`interleave [(s0, b0), (s1, b1), ...] t` is
`s0 ++ "CHECK(" ++ b0 ++ ");" ++ s1 ++ "CHECK(" ++ b1 ++ ");" ++ ... ++ t`. -/
def interleave : List (List Char × List Char) → List Char → List Char
  | [], t => t
  | (s, b) :: rest, t => s ++ checkMark ++ b ++ ')' :: ';' :: interleave rest t

/-- No occurrence of the `CHECK(` marker begins at any of the first `n`
positions of `s`. -/
def noMarkBefore (s : List Char) (n : Nat) : Bool :=
  (List.range n).all (fun i => !(checkMark.isPrefixOf (s.drop i)))

/-- Well-formedness of a decomposed code block: each plain segment contains
no `CHECK(` marker (relative to the full remaining string, so markers are
exactly at the designated spots), each check body has balanced parentheses,
and the trailing text contains no marker. -/
def SegsOK : List (List Char × List Char) → List Char → Bool
  | [], t => noMarkBefore t t.length
  | (s, b) :: rest, t =>
    noMarkBefore (interleave ((s, b) :: rest) t) s.length && bal b 0
      && SegsOK rest t

/-- Result test for the parse of a check body. -/
def exOk : Except ParseErr CheckString → Bool
  | .ok _ => true
  | .error _ => false

/-- Every check body in the decomposition parses without a definition
error. -/
def ParsesOK : List (List Char × List Char) → Bool
  | [] => true
  | (_, b) :: rest => exOk (CheckString.parse b) && ParsesOK rest

/-- Expected rewritten output for a decomposed code block: each plain
segment verbatim, each invocation replaced by its instrumentation, and the
trailing text verbatim. -/
def expectedOut (toCPP : CheckInfo → List Char) (tcid : Nat) :
    List (List Char × List Char) → List Char → Nat → List Char
  | [], t, _ => t
  | (s, b) :: rest, t, cid =>
    s ++ (match CheckString.parse b with
          | .ok cs => toCPP { test := cs, location := locationStr tcid cid, id := cid }
          | .error _ => [])
      ++ expectedOut toCPP tcid rest t (cid + 1)

/-- Expected check-record list for a decomposed code block, with sequence
ids assigned in source order starting from `cid`. -/
def expectedRecs (tcid : Nat) : List (List Char × List Char) → Nat → List CheckInfo
  | [], _ => []
  | (_, b) :: rest, cid =>
    (match CheckString.parse b with
     | .ok cs => [{ test := cs, location := locationStr tcid cid, id := cid }]
     | .error _ => [])
      ++ expectedRecs tcid rest (cid + 1)

/-- A comparator token occurs at position `i` of `s`. -/
def comparatorTokenAt (s : List Char) (i : Nat) : Prop :=
  ∃ p ∈ comparatorPats, p.isPrefixOf (s.drop i) = true

/-- The substring `&&` or `||` occurs at position `i` of `s`. -/
def boolOpAt (s : List Char) (i : Nat) : Prop :=
  ∃ p ∈ boolOpPats, p.isPrefixOf (s.drop i) = true

instance (s : List Char) (i : Nat) : Decidable (comparatorTokenAt s i) := by
  unfold comparatorTokenAt; infer_instance

instance (s : List Char) (i : Nat) : Decidable (boolOpAt s i) := by
  unfold boolOpAt; infer_instance

/-- Placeholder parsed assertion used to build concrete check lists. -/
def csNil : CheckString := ⟨[], [], [], []⟩

/-- Concrete testcase that failed compilation (exit code 1) although its
single check passed. -/
def tcC1 : Testcase :=
  { id := 1, points := 5, compile_exit_code := 1,
    checks := [{ test := csNil, location := [], id := 0, passed := true }] }

/-- Concrete testcase with checks whose ids are 0 and 1. -/
def tcC8 : Testcase :=
  { id := 2,
    checks := [{ test := csNil, location := [], id := 0, passed := false },
               { test := csNil, location := [], id := 1, passed := true }] }

/-- Concrete testcase in which compile failure, timeout and output
mismatch all hold at once. -/
def tcC9 : Testcase :=
  { id := 3, compile_exit_code := 1, hit_timeout := true, output_match := false }

/-- Concrete testcase configured with neither a code file nor in-place
code. -/
def tcNoSource : Testcase := { id := 4 }

/-- Concrete testcase configured with both a code file and in-place code. -/
def tcConflict : Testcase :=
  { id := 5, code_filename := "f.cpp".toList, code := ["int x;".toList] }

/-- Concrete instrumentation generator used to exercise the rewriting
pipeline: emit the check's location label. -/
def demoToCPP (info : CheckInfo) : List Char := info.location

/-- Concrete decomposed code block: one segment, one check invocation. -/
def demoSegs : List (List Char × List Char) := [("int a = 1; ".toList, "a == 1".toList)]

/-- Concrete trailing text after the last invocation. -/
def demoTail : List Char := " return;".toList

/-- Soundness of the find scanner: a returned position is at or after the
start and carries an occurrence of the pattern. -/
theorem strFindAux_sound {s pat : List Char} :
    ∀ {rem start j : Nat}, strFindAux s pat start rem = some j →
      start ≤ j ∧ pat.isPrefixOf (s.drop j) = true := by
  intro rem
  induction rem with
  | zero => intro start j h; simp [strFindAux] at h
  | succ n ih =>
    intro start j h
    cases hp : pat.isPrefixOf (s.drop start) with
    | true =>
      simp [strFindAux, hp] at h
      subst h
      exact ⟨Nat.le_refl _, hp⟩
    | false =>
      simp [strFindAux, hp] at h
      obtain ⟨h1, h2⟩ := ih h
      exact ⟨Nat.le_of_succ_le h1, h2⟩

/-- Soundness of the `std::string::find` model. -/
theorem strFindFrom_sound {s pat : List Char} {start j : Nat}
    (h : strFindFrom s pat start = some j) :
    start ≤ j ∧ pat.isPrefixOf (s.drop j) = true :=
  strFindAux_sound h

/-- A nonempty pattern occurring at position `q` forces `q` to be a real
index of the string. -/
theorem prefixAt_lt_length {s pat : List Char} {q : Nat} (hne : pat ≠ [])
    (h : pat.isPrefixOf (s.drop q) = true) : q < s.length := by
  by_contra hq
  push_neg at hq
  rw [List.drop_eq_nil_of_le hq, List.isPrefixOf_iff_prefix] at h
  exact hne (List.prefix_nil.mp h)

/-- Completeness of the find scanner: an occurrence within the scanned
window is not missed. -/
theorem strFindAux_isSome {s pat : List Char} :
    ∀ {rem start q : Nat}, pat.isPrefixOf (s.drop q) = true → start ≤ q →
      q < start + rem → (strFindAux s pat start rem).isSome := by
  intro rem
  induction rem with
  | zero => intro start q _ h1 h2; omega
  | succ n ih =>
    intro start q hq h1 h2
    cases hp : pat.isPrefixOf (s.drop start) with
    | true => simp [strFindAux, hp]
    | false =>
      have hne : start ≠ q := by
        intro e; rw [e, hq] at hp; cases hp
      simp [strFindAux, hp]
      exact ih hq (by omega) (by omega)

/-- Completeness of the `std::string::find` model: a nonempty pattern
occurring at or after `start` is found. -/
theorem strFindFrom_isSome {s pat : List Char} {start q : Nat}
    (h : pat.isPrefixOf (s.drop q) = true) (hne : pat ≠ []) (hs : start ≤ q) :
    (strFindFrom s pat start).isSome := by
  have hq := prefixAt_lt_length hne h
  exact strFindAux_isSome h hs (by omega)

/-- Exactness of the find scanner: the first occurrence at or after the
start is the one returned. -/
theorem strFindAux_eq_some {s pat : List Char} :
    ∀ {rem start j : Nat}, pat.isPrefixOf (s.drop j) = true →
      (∀ i, start ≤ i → i < j → pat.isPrefixOf (s.drop i) = false) →
      start ≤ j → j < start + rem →
      strFindAux s pat start rem = some j := by
  intro rem
  induction rem with
  | zero => intro start j _ _ h1 h2; omega
  | succ n ih =>
    intro start j hm hmin h1 h2
    by_cases hsj : start = j
    · subst hsj
      simp [strFindAux, hm]
    · have hlt : start < j := by omega
      have hfalse : pat.isPrefixOf (s.drop start) = false := hmin start (Nat.le_refl _) hlt
      simp [strFindAux, hfalse]
      exact ih hm (fun i hi hij => hmin i (by omega) hij) (by omega) (by omega)

/-- Characterization used to pin down `std::string::find` results. -/
theorem strFindFrom_eq_some {s pat : List Char} {start j : Nat} (hne : pat ≠ [])
    (hm : pat.isPrefixOf (s.drop j) = true)
    (hmin : ∀ i, start ≤ i → i < j → pat.isPrefixOf (s.drop i) = false)
    (hs : start ≤ j) : strFindFrom s pat start = some j := by
  have hq := prefixAt_lt_length hne hm
  exact strFindAux_eq_some hm hmin hs (by omega)

/-- A find that starts beyond the end of the string returns `npos`. -/
theorem strFindFrom_none_of_lt {s pat : List Char} {start : Nat}
    (h : s.length < start) : strFindFrom s pat start = none := by
  unfold strFindFrom
  have e : s.length + 1 - start = 0 := by omega
  rw [e]
  rfl

/-- The optional minimum is defined when either argument is. -/
theorem optMin_isSome (a b : Option Nat) :
    (optMin a b).isSome = (a.isSome || b.isSome) := by
  cases a <;> cases b <;> rfl

/-- Every position returned by `find_any_of` is the `find` result for one
of the patterns. -/
theorem findAnyOf_sound {s : List Char} {start : Nat} :
    ∀ {pats : List (List Char)} {j : Nat}, findAnyOf s start pats = some j →
      ∃ p ∈ pats, strFindFrom s p start = some j := by
  intro pats
  induction pats with
  | nil => intro j h; simp [findAnyOf] at h
  | cons p ps ih =>
    intro j h
    have e : findAnyOf s start (p :: ps) =
        optMin (strFindFrom s p start) (findAnyOf s start ps) := rfl
    rw [e] at h
    cases h1 : strFindFrom s p start with
    | none =>
      rw [h1] at h
      simp only [optMin] at h
      obtain ⟨q, hq, hfind⟩ := ih h
      exact ⟨q, List.mem_cons_of_mem _ hq, hfind⟩
    | some a =>
      cases h2 : findAnyOf s start ps with
      | none =>
        rw [h1, h2] at h
        simp only [optMin, Option.some.injEq] at h
        exact ⟨p, List.mem_cons_self _ _, by rw [h1, h]⟩
      | some b =>
        rw [h1, h2] at h
        simp only [optMin, Option.some.injEq] at h
        by_cases hab : a ≤ b
        · have hja : j = a := by omega
          subst hja
          exact ⟨p, List.mem_cons_self _ _, h1⟩
        · have hjb : j = b := by omega
          subst hjb
          obtain ⟨q, hq, hfind⟩ := ih h2
          exact ⟨q, List.mem_cons_of_mem _ hq, hfind⟩

/-- Completeness of `find_any_of`: it succeeds whenever one of its
patterns can be found. -/
theorem findAnyOf_isSome_of {s : List Char} {start : Nat}
    {pats : List (List Char)} {p : List Char} (hp : p ∈ pats)
    (h : (strFindFrom s p start).isSome) : (findAnyOf s start pats).isSome := by
  induction pats with
  | nil => cases hp
  | cons q ps ih =>
    have e : findAnyOf s start (q :: ps) =
        optMin (strFindFrom s q start) (findAnyOf s start ps) := rfl
    rw [e, optMin_isSome]
    rcases List.mem_cons.mp hp with h1 | h1
    · subst h1; rw [h]; rfl
    · rw [ih h1, Bool.or_true]

/-- When none of the patterns occurs, `find_any_of` returns `npos`. -/
theorem findAnyOf_eq_none {s : List Char} {start : Nat}
    {pats : List (List Char)} (h : ∀ p ∈ pats, strFindFrom s p start = none) :
    findAnyOf s start pats = none := by
  induction pats with
  | nil => rfl
  | cons q ps ih =>
    have e : findAnyOf s start (q :: ps) =
        optMin (strFindFrom s q start) (findAnyOf s start ps) := rfl
    rw [e, h q (List.mem_cons_self _ _), ih (fun p hp => h p (List.mem_cons_of_mem _ hp))]
    rfl

/-- The depth-counting scanner only depends on the absolute base index by
an additive shift. -/
theorem parenScan_shift :
    ∀ (l : List Char) (k i d : Nat),
      parenScan l (k + i) d = (parenScan l i d).map (k + ·) := by
  intro l
  induction l with
  | nil => intro k i d; rfl
  | cons c rest ih =>
    intro k i d
    by_cases h1 : c = '('
    · simp only [parenScan, if_pos h1]
      have e : k + i + 1 = k + (i + 1) := by omega
      rw [e]
      exact ih k (i + 1) (d + 1)
    · by_cases h2 : c = ')'
      · by_cases h3 : d = 1
        · simp only [parenScan, if_neg h1, if_pos h2, if_pos h3, Option.map]
        · simp only [parenScan, if_neg h1, if_pos h2, if_neg h3]
          have e : k + i + 1 = k + (i + 1) := by omega
          rw [e]
          exact ih k (i + 1) (d - 1)
      · simp only [parenScan, if_neg h1, if_neg h2]
        have e : k + i + 1 = k + (i + 1) := by omega
        rw [e]
        exact ih k (i + 1) d

/-- Unfolding of the depth scanner at an opening parenthesis. -/
theorem parenScan_cons_open (rest : List Char) (idx depth : Nat) :
    parenScan ('(' :: rest) idx depth = parenScan rest (idx + 1) (depth + 1) := rfl

/-- Unfolding of the depth scanner at a closing parenthesis. -/
theorem parenScan_cons_close (rest : List Char) (idx depth : Nat) :
    parenScan (')' :: rest) idx depth =
      if depth = 1 then some idx else parenScan rest (idx + 1) (depth - 1) := rfl

/-- Unfolding of the depth scanner at any other character. -/
theorem parenScan_cons_other {c : Char} (h1 : c ≠ '(') (h2 : c ≠ ')')
    (rest : List Char) (idx depth : Nat) :
    parenScan (c :: rest) idx depth = parenScan rest (idx + 1) depth := by
  simp only [parenScan, if_neg h1, if_neg h2]

/-- Unfolding of the balance check at an opening parenthesis. -/
theorem bal_cons_open (r : List Char) (d : Nat) : bal ('(' :: r) d = bal r (d + 1) := rfl

/-- Unfolding of the balance check at a closing parenthesis. -/
theorem bal_cons_close (r : List Char) (d : Nat) :
    bal (')' :: r) d = if d == 0 then false else bal r (d - 1) := rfl

/-- Unfolding of the balance check at any other character. -/
theorem bal_cons_other {c : Char} (h1 : c ≠ '(') (h2 : c ≠ ')') (r : List Char) (d : Nat) :
    bal (c :: r) d = bal r d := by
  simp only [bal, if_neg h1, if_neg h2]

/-- Scanning a balanced body followed by a closing parenthesis returns the
index of that parenthesis. -/
theorem parenScan_balanced :
    ∀ (b : List Char) (r : List Char) (idx d : Nat), bal b d = true →
      parenScan (b ++ ')' :: r) idx (d + 1) = some (idx + b.length) := by
  intro b
  induction b with
  | nil =>
    intro r idx d hb
    simp only [bal, beq_iff_eq] at hb
    subst hb
    simp [parenScan]
  | cons c rest ih =>
    intro r idx d hb
    by_cases h1 : c = '('
    · subst h1
      rw [bal_cons_open] at hb
      rw [List.cons_append, parenScan_cons_open, ih r (idx + 1) (d + 1) hb]
      simp only [List.length_cons]
      congr 1
      omega
    · by_cases h2 : c = ')'
      · subst h2
        rw [bal_cons_close] at hb
        have hd : d ≠ 0 := by
          intro e; subst e; simp at hb
        rw [if_neg (by simpa using hd)] at hb
        rw [List.cons_append, parenScan_cons_close, if_neg (by omega : ¬ d + 1 = 1)]
        rw [show d + 1 - 1 = (d - 1) + 1 by omega, ih r (idx + 1) (d - 1) hb]
        simp only [List.length_cons]
        congr 1
        omega
      · rw [bal_cons_other h1 h2] at hb
        rw [List.cons_append, parenScan_cons_other h1 h2, ih r (idx + 1) d hb]
        simp only [List.length_cons]
        congr 1
        omega

/-- The find scanner only depends on the base of the scan window by an
additive shift into the dropped suffix. -/
theorem strFindAux_shift {s pat : List Char} {k : Nat} :
    ∀ (rem i : Nat),
      strFindAux s pat (k + i) rem = (strFindAux (s.drop k) pat i rem).map (k + ·) := by
  intro rem
  induction rem with
  | zero => intro i; rfl
  | succ n ih =>
    intro i
    have e : (s.drop k).drop i = s.drop (k + i) := by rw [List.drop_drop]
    cases hp : pat.isPrefixOf ((s.drop k).drop i) with
    | true =>
      have hp' : pat.isPrefixOf (s.drop (k + i)) = true := by rw [← e]; exact hp
      simp only [strFindAux]
      rw [hp, hp']
      simp
    | false =>
      have hp' : pat.isPrefixOf (s.drop (k + i)) = false := by rw [← e]; exact hp
      simp only [strFindAux]
      rw [hp, hp']
      simp only [Bool.false_eq_true, if_false]
      have e2 : k + i + 1 = k + (i + 1) := by omega
      rw [e2]
      exact ih (i + 1)

/-- Model of the cursor shift: a `find` from absolute position `k` is the
`find` from position 0 of the dropped suffix, offset by `k`. -/
theorem strFindFrom_shift {s pat : List Char} {k : Nat} (hk : k ≤ s.length) :
    strFindFrom s pat k = (strFindFrom (s.drop k) pat 0).map (k + ·) := by
  unfold strFindFrom
  have e1 : (s.drop k).length + 1 - 0 = s.length + 1 - k := by
    rw [List.length_drop]; omega
  rw [e1]
  exact strFindAux_shift (s.length + 1 - k) 0

/-- Shift for the balanced-parenthesis search. -/
theorem findParenMatch_shift {s : List Char} {k j : Nat} :
    findParenMatch s (k + j) = (findParenMatch (s.drop k) j).map (k + ·) := by
  unfold findParenMatch
  have e : (s.drop k).drop (j + 1) = s.drop (k + (j + 1)) := by rw [List.drop_drop]
  rw [show k + j + 1 = k + (j + 1) by omega, ← e]
  exact parenScan_shift _ k (j + 1) 1

/-- Dropping past an appended prefix of known length. -/
theorem drop_len_add {α : Type} (q X : List α) (i : Nat) :
    (q ++ X).drop (q.length + i) = X.drop i := by
  induction q with
  | nil => simp
  | cons c r ih =>
    simp only [List.cons_append, List.length_cons]
    rw [show r.length + 1 + i = (r.length + i) + 1 by omega]
    rw [List.drop_succ_cons]
    exact ih

/-- The loop exits immediately once the cursor is past the end of the
string. -/
theorem processLoop_over (toCPP : CheckInfo → List Char) (tcid : Nat)
    (fuel : Nat) (s : List Char) (k cid : Nat) (hk : s.length + 1 ≤ k) :
    processLoop toCPP tcid fuel s k cid = .ok ([], []) := by
  have hd : s.drop k = [] := List.drop_eq_nil_of_le (by omega)
  cases fuel with
  | zero => simp [processLoop, hd]
  | succ f =>
    have hf : strFindFrom s checkMark k = none := strFindFrom_none_of_lt (by omega)
    simp [processLoop, hf, hd]

/-- Unfolding of the loop when no further invocation marker is found: the
rest of the string is copied verbatim. -/
theorem processLoop_none (toCPP : CheckInfo → List Char) (tcid f : Nat)
    (s : List Char) (k cid : Nat)
    (hfind : strFindFrom s checkMark k = none) :
    processLoop toCPP tcid (f + 1) s k cid = .ok (s.drop k, []) := by
  simp only [processLoop, hfind]

/-- Unfolding of one successful loop iteration: marker at `cp`, matching
parenthesis at `m`, body parsing to `cs`. -/
theorem processLoop_step (toCPP : CheckInfo → List Char) (tcid f : Nat)
    (s : List Char) (k cid cp m : Nat) (cs : CheckString)
    (hfind : strFindFrom s checkMark k = some cp)
    (hpm : findParenMatch s (cp + 5) = some m)
    (hparse : CheckString.parse ((s.drop (cp + 6)).take (m - (cp + 6))) = .ok cs) :
    processLoop toCPP tcid (f + 1) s k cid =
      match processLoop toCPP tcid f s (m + 2) (cid + 1) with
      | .error e => .error e
      | .ok (out, cks) =>
        .ok ((s.drop k).take (cp - k)
              ++ toCPP ⟨cs, locationStr tcid cid, cid, false, false⟩ ++ out,
             ⟨cs, locationStr tcid cid, cid, false, false⟩ :: cks) := by
  simp only [processLoop, hfind, hpm, hparse]

/-- A decomposed code block is at least as long as its number of
invocations. -/
theorem interleave_length :
    ∀ (L : List (List Char × List Char)) (t : List Char),
      L.length ≤ (interleave L t).length := by
  intro L
  induction L with
  | nil => intro t; simp [interleave]
  | cons sb L ih =>
    intro t
    obtain ⟨s, b⟩ := sb
    have h := ih t
    simp only [interleave, List.length_cons, List.length_append]
    omega

/-- Core loop invariant: running the loop with the cursor at the end of an
already-consumed prefix `q` of the string rewrites the decomposed rest
verbatim, replacing each invocation by its instrumentation and collecting
the check records in order. -/
theorem processLoop_interleave (toCPP : CheckInfo → List Char) (tcid : Nat) :
    ∀ (L : List (List Char × List Char)) (t q : List Char) (cid fuel : Nat),
      SegsOK L t = true → ParsesOK L = true → L.length + 1 ≤ fuel →
      processLoop toCPP tcid fuel (q ++ interleave L t) q.length cid =
        .ok (expectedOut toCPP tcid L t cid, expectedRecs tcid L cid) := by
  intro L
  induction L with
  | nil =>
    intro t q cid fuel hseg hpar hfuel
    obtain ⟨f, rfl⟩ : ∃ f, fuel = f + 1 := ⟨fuel - 1, by omega⟩
    simp only [SegsOK, noMarkBefore, List.all_eq_true] at hseg
    simp only [interleave]
    have hfind : strFindFrom (q ++ t) checkMark q.length = none := by
      cases hX : strFindFrom (q ++ t) checkMark q.length with
      | none => rfl
      | some j =>
        obtain ⟨hle, hpre⟩ := strFindFrom_sound hX
        obtain ⟨j', rfl⟩ : ∃ j', j = q.length + j' := ⟨j - q.length, by omega⟩
        rw [drop_len_add] at hpre
        have hj : j' < t.length := prefixAt_lt_length (by decide) hpre
        have hall := hseg j' (List.mem_range.mpr hj)
        simp only [hpre] at hall
        cases hall
    rw [processLoop_none toCPP tcid f _ _ _ hfind]
    have hq : (q ++ t).drop q.length = t := by
      have h0 := drop_len_add q t 0
      simp only [Nat.add_zero, List.drop_zero] at h0
      exact h0
    rw [hq]
    simp [expectedOut, expectedRecs]
  | cons sb L ih =>
    obtain ⟨s, b⟩ := sb
    intro t q cid fuel hseg hpar hfuel
    obtain ⟨f, rfl⟩ : ∃ f, fuel = f + 1 := ⟨fuel - 1, by omega⟩
    simp only [SegsOK, Bool.and_eq_true] at hseg
    obtain ⟨⟨hmark, hbal⟩, hrest⟩ := hseg
    simp only [ParsesOK, Bool.and_eq_true] at hpar
    obtain ⟨hok, hpar'⟩ := hpar
    simp only [List.length_cons] at hfuel
    have hcm : checkMark.length = 6 := rfl
    have hSdef : interleave ((s, b) :: L) t
        = s ++ checkMark ++ b ++ ')' :: ';' :: interleave L t := rfl
    -- The marker is found exactly at the end of q ++ s.
    have hfind : strFindFrom (q ++ interleave ((s, b) :: L) t) checkMark q.length
        = some (q.length + s.length) := by
      apply strFindFrom_eq_some (by decide)
      · rw [drop_len_add, hSdef]
        rw [show s ++ checkMark ++ b ++ ')' :: ';' :: interleave L t
              = s ++ (checkMark ++ (b ++ ')' :: ';' :: interleave L t)) by
            simp [List.append_assoc]]
        rw [List.drop_left]
        exact List.isPrefixOf_iff_prefix.mpr (List.prefix_append _ _)
      · intro i hqi his
        obtain ⟨i', rfl⟩ : ∃ i', i = q.length + i' := ⟨i - q.length, by omega⟩
        rw [drop_len_add]
        simp only [noMarkBefore, List.all_eq_true] at hmark
        have := hmark i' (List.mem_range.mpr (by omega))
        simpa using this
      · omega
    -- The matching parenthesis sits right after the body.
    have hdrop6 : (q ++ interleave ((s, b) :: L) t).drop (q.length + s.length + 6)
        = b ++ ')' :: ';' :: interleave L t := by
      rw [show q.length + s.length + 6 = q.length + (s.length + 6) by omega, drop_len_add]
      rw [hSdef]
      rw [show s ++ checkMark ++ b ++ ')' :: ';' :: interleave L t
            = (s ++ checkMark) ++ (b ++ ')' :: ';' :: interleave L t) by
          simp [List.append_assoc]]
      rw [show s.length + 6 = (s ++ checkMark).length by simp [hcm]]
      exact List.drop_left _ _
    have hpm : findParenMatch (q ++ interleave ((s, b) :: L) t) (q.length + s.length + 5)
        = some (q.length + s.length + 6 + b.length) := by
      unfold findParenMatch
      rw [show q.length + s.length + 5 + 1 = q.length + s.length + 6 by omega, hdrop6]
      exact parenScan_balanced b (';' :: interleave L t) (q.length + s.length + 6) 0 hbal
    -- The extracted body is exactly b.
    have hbody : ((q ++ interleave ((s, b) :: L) t).drop (q.length + s.length + 6)).take
          ((q.length + s.length + 6 + b.length) - (q.length + s.length + 6)) = b := by
      rw [hdrop6, show (q.length + s.length + 6 + b.length) - (q.length + s.length + 6)
            = b.length by omega]
      exact List.take_left _ _
    -- The body parses by hypothesis.
    cases hpb : CheckString.parse b with
    | error e => rw [hpb] at hok; simp [exOk] at hok
    | ok cs =>
      have hparse : CheckString.parse
          (((q ++ interleave ((s, b) :: L) t).drop (q.length + s.length + 6)).take
            ((q.length + s.length + 6 + b.length) - (q.length + s.length + 6))) = .ok cs := by
        rw [hbody, hpb]
      have hstep := processLoop_step toCPP tcid f (q ++ interleave ((s, b) :: L) t)
        q.length cid (q.length + s.length) (q.length + s.length + 6 + b.length) cs
        hfind (by rw [show q.length + s.length + 5 = q.length + s.length + 5 by rfl]; exact hpm)
        hparse
      rw [hstep]
      -- The recursive call consumes the rest of the decomposition.
      have harg : q ++ interleave ((s, b) :: L) t
          = (q ++ s ++ checkMark ++ b ++ [')', ';']) ++ interleave L t := by
        rw [hSdef]; simp
      have hlen : q.length + s.length + 6 + b.length + 2
          = (q ++ s ++ checkMark ++ b ++ [')', ';']).length := by
        simp [hcm]
        omega
      rw [show q.length + s.length + 6 + b.length + 2
            = q.length + s.length + 6 + b.length + 2 by rfl] at *
      have hrec : processLoop toCPP tcid f (q ++ interleave ((s, b) :: L) t)
          (q.length + s.length + 6 + b.length + 2) (cid + 1)
          = .ok (expectedOut toCPP tcid L t (cid + 1), expectedRecs tcid L (cid + 1)) := by
        rw [harg, hlen]
        exact ih t _ (cid + 1) f hrest hpar' (by omega)
      rw [hrec]
      -- Assemble the segment and the instrumentation.
      have hseg' : ((q ++ interleave ((s, b) :: L) t).drop q.length).take
            ((q.length + s.length) - q.length) = s := by
        have hq0 : (q ++ interleave ((s, b) :: L) t).drop q.length
            = interleave ((s, b) :: L) t := by
          have h0 := drop_len_add q (interleave ((s, b) :: L) t) 0
          simp only [Nat.add_zero, List.drop_zero] at h0
          exact h0
        rw [hq0, show (q.length + s.length) - q.length = s.length by omega, hSdef]
        rw [show s ++ checkMark ++ b ++ ')' :: ';' :: interleave L t
              = s ++ (checkMark ++ b ++ ')' :: ';' :: interleave L t) by
            simp [List.append_assoc]]
        exact List.take_left _ _
      rw [hseg']
      simp only [expectedOut, expectedRecs, hpb]
      rfl

/-- Nonemptiness of the boolean-operator patterns. -/
theorem boolOpPats_ne : ∀ p ∈ boolOpPats, p ≠ [] := by decide

/-- Nonemptiness of the comparator patterns. -/
theorem comparatorPats_ne : ∀ p ∈ comparatorPats, p ≠ [] := by decide

/-- When no pattern of a family occurs anywhere in the string, a
`find_any_of` over that family cannot succeed. -/
theorem findAnyOf_isSome_false {test : List Char} {start : Nat}
    {pats : List (List Char)} (hne : ∀ p ∈ pats, p ≠ [])
    (h : ∀ i < test.length, ¬ ∃ p ∈ pats, p.isPrefixOf (test.drop i) = true) :
    (findAnyOf test start pats).isSome = false := by
  cases hX : findAnyOf test start pats with
  | none => rfl
  | some j =>
    obtain ⟨p, hp, hfind⟩ := findAnyOf_sound hX
    obtain ⟨hle, hpre⟩ := strFindFrom_sound hfind
    have hj : j < test.length := prefixAt_lt_length (hne p hp) hpre
    exact absurd ⟨p, hp, hpre⟩ (h j hj)

/-- Loop behavior of `Testcase::Passed(size_t)`: vacuous pass when no
check carries the queried id, and the first matching check decides
otherwise. -/
theorem passedAtChecks_spec (checks : List CheckInfo) (test_id : Nat) :
    ((∀ c ∈ checks, c.id ≠ test_id) → passedAtChecks checks test_id = true)
    ∧ (∀ c, checks.find? (fun x => x.id == test_id) = some c →
        passedAtChecks checks test_id = c.passed) := by
  induction checks with
  | nil =>
    constructor
    · intro _; rfl
    · intro c h; simp at h
  | cons a l ih =>
    constructor
    · intro h
      have ha : a.id ≠ test_id := h a (List.mem_cons_self _ _)
      simp only [passedAtChecks, if_neg ha]
      exact ih.1 (fun c hc => h c (List.mem_cons_of_mem _ hc))
    · intro c h
      by_cases ha : a.id = test_id
      · rw [List.find?_cons_of_pos _ (by simp [ha])] at h
        cases h
        simp [passedAtChecks, if_pos ha]
      · rw [List.find?_cons_of_neg _ (by simp [ha])] at h
        rw [show passedAtChecks (a :: l) test_id = passedAtChecks l test_id by
          simp [passedAtChecks, if_neg ha]]
        exact ih.2 c h

/-- C1: `Passed()` returns true iff every check record has `passed = true`,
the output matched, the testcase did not time out and the compile exit
code is 0; a testcase with compile exit code 1 has `Passed() = false`
regardless of check outcomes, and `EarnedPoints()` returns `points` when
`Passed()` holds and 0 otherwise. -/
theorem c1_passed_scoring (tc : Testcase) :
    (tc.Passed = true ↔
      ((∀ c ∈ tc.checks, c.passed = true) ∧ tc.output_match = true
        ∧ tc.hit_timeout = false ∧ tc.compile_exit_code = 0))
    ∧ (tc.compile_exit_code = 1 → tc.Passed = false ∧ tc.EarnedPoints = 0)
    ∧ tc.EarnedPoints = (if tc.Passed = true then tc.points else 0) := by
  have hiff : tc.Passed = true ↔
      ((∀ c ∈ tc.checks, c.passed = true) ∧ tc.output_match = true
        ∧ tc.hit_timeout = false ∧ tc.compile_exit_code = 0) := by
    unfold Testcase.Passed Testcase.CountPassed
    simp only [Bool.and_eq_true, beq_iff_eq, Bool.not_eq_true']
    rw [List.countP_eq_length]
    tauto
  refine ⟨hiff, ?_, ?_⟩
  · intro h1
    have hfalse : tc.Passed = false := by
      cases hP : tc.Passed with
      | false => rfl
      | true =>
        have h0 := (hiff.mp hP).2.2.2
        rw [h1] at h0
        exact absurd h0 one_ne_zero
    refine ⟨hfalse, ?_⟩
    unfold Testcase.EarnedPoints
    rw [hfalse]
    simp
  · unfold Testcase.EarnedPoints
    rfl

/-- Witness for C1: a compile exit code of 1 forces failure and zero
points even though every check passed. -/
theorem c1_witness : tcC1.compile_exit_code = 1 ∧ tcC1.Passed = false
    ∧ tcC1.EarnedPoints = 0 :=
  ⟨rfl, ((c1_passed_scoring tcC1).2.1 rfl).1, ((c1_passed_scoring tcC1).2.1 rfl).2⟩

/-- C8: `Passed(sequenceId)` is vacuously true when no check record
carries the queried id, and returns that record's `passed` value when one
does (the first such record, which is unique when ids are). -/
theorem c8_passed_at (tc : Testcase) (test_id : Nat) :
    ((∀ c ∈ tc.checks, c.id ≠ test_id) → tc.PassedAt test_id = true)
    ∧ (∀ c, tc.checks.find? (fun x => x.id == test_id) = some c →
        tc.PassedAt test_id = c.passed) :=
  passedAtChecks_spec tc.checks test_id

/-- Witness for C8: querying an id that no check carries yields a vacuous
pass on a populated check list. -/
theorem c8_witness : (∀ c ∈ tcC8.checks, c.id ≠ 7) ∧ tcC8.PassedAt 7 = true :=
  ⟨by decide, (c8_passed_at tcC8 7).1 (by decide)⟩

/-- C9: the outcome line of `PrintResult_Success` carries exactly one
message, chosen by priority compile failure, then timeout, then output
mismatch, then unsuccessful check, with the pass message when the
testcase passed. -/
theorem c9_result_message (tc : Testcase) :
    (tc.Passed = true → tc.resultMessage = "PASSED!")
    ∧ (tc.Passed = false → tc.compile_exit_code ≠ 0 →
        tc.resultMessage = "FAILED during compilation.")
    ∧ (tc.Passed = false → tc.compile_exit_code = 0 → tc.hit_timeout = true →
        tc.resultMessage = "FAILED due to timeout.")
    ∧ (tc.Passed = false → tc.compile_exit_code = 0 → tc.hit_timeout = false →
        tc.output_match = false → tc.resultMessage = "FAILED due to mis-matched output.")
    ∧ (tc.Passed = false → tc.compile_exit_code = 0 → tc.hit_timeout = false →
        tc.output_match = true → tc.resultMessage = "FAILED due to unsuccessful check.") := by
  refine ⟨fun h1 => ?_, fun h1 h2 => ?_, fun h1 h2 h3 => ?_,
    fun h1 h2 h3 h4 => ?_, fun h1 h2 h3 h4 => ?_⟩
  · simp [Testcase.resultMessage, h1]
  · simp [Testcase.resultMessage, h1, h2]
  · simp [Testcase.resultMessage, h1, h2, h3]
  · simp [Testcase.resultMessage, h1, h2, h3, h4]
  · simp [Testcase.resultMessage, h1, h2, h3, h4]

/-- Witness for C9: with compile failure, timeout and output mismatch all
present at once, the single message shown is the compile-failure one. -/
theorem c9_witness : tcC9.Passed = false ∧ tcC9.compile_exit_code ≠ 0
    ∧ tcC9.hit_timeout = true ∧ tcC9.output_match = false
    ∧ tcC9.resultMessage = "FAILED during compilation." :=
  ⟨by decide, by decide, rfl, rfl, (c9_result_message tcC9).2.1 (by decide) (by decide)⟩

/-- Counterexample for C3: with neither a code file nor in-place code
configured, `GenerateCPP`'s source resolution raises no error at all (no
`MissingCodeSource`), and simply proceeds with the empty code block. -/
theorem c3_counterexample :
    tcNoSource.code_filename = [] ∧ tcNoSource.code = []
      ∧ tcNoSource.resolveCode [] = .ok [] := by
  refine ⟨rfl, rfl, by decide⟩

/-- C3 as amended: a conflicting configuration (both code file and
in-place code) aborts generation with the conflict error, and with no code
file configured the in-place code is used with no missing-source check. -/
theorem c3_amended_conflict (tc : Testcase) (file_lines : List (List Char)) :
    (tc.code_filename ≠ [] → tc.code ≠ [] →
      tc.resolveCode file_lines = .error .ConflictingCodeSource)
    ∧ (tc.code_filename = [] → tc.resolveCode file_lines = .ok tc.code) := by
  constructor
  · intro h1 h2
    simp [Testcase.resolveCode, List.length_eq_zero, h1, h2]
  · intro h1
    simp [Testcase.resolveCode, h1]

/-- Witness for C3's amended theorem: a concrete conflicting testcase is
rejected with `ConflictingCodeSource`. -/
theorem c3_witness : tcConflict.code_filename ≠ [] ∧ tcConflict.code ≠ []
    ∧ tcConflict.resolveCode [] = .error .ConflictingCodeSource :=
  ⟨by decide, by decide, (c3_amended_conflict tcConflict []).1 (by decide) (by decide)⟩

/-- C5: an assertion string containing `&&` or `||` anywhere is rejected
with the malformed-assertion definition error, before any comparator
scanning. -/
theorem c5_malformed (test : List Char) (h : ∃ i, boolOpAt test i) :
    CheckString.parse test = .error .MalformedAssertion := by
  obtain ⟨i, p, hp, hpre⟩ := h
  have hne : p ≠ [] := boolOpPats_ne p hp
  have hsome : (findAnyOf test 0 boolOpPats).isSome :=
    findAnyOf_isSome_of hp (strFindFrom_isSome hpre hne (Nat.zero_le _))
  unfold CheckString.parse
  rw [if_pos hsome]

/-- Witness for C5: the string `a&&b` is rejected as malformed. -/
theorem c5_witness : boolOpAt ("a&&b".toList) 1
    ∧ CheckString.parse ("a&&b".toList) = .error .MalformedAssertion :=
  ⟨by decide, c5_malformed _ ⟨1, by decide⟩⟩

/-- Counterexample for C2: `x<>y` contains two comparator tokens (`<` at
position 1 and `>` at position 2), yet parsing does not fail with the
multiple-comparators error: the second scan starts two characters past
the start of the single-character first comparator and misses the second
token, so the string parses with comparator `<` and right side `>y`. -/
theorem c2_counterexample :
    comparatorTokenAt ("x<>y".toList) 1 ∧ comparatorTokenAt ("x<>y".toList) 2
      ∧ CheckString.parse ("x<>y".toList)
          = .ok ⟨"x<>y".toList, "x".toList, "<".toList, ">y".toList⟩ :=
  ⟨by decide, by decide, by decide⟩

/-- C2 as amended: the second scan starts at `comp_pos + 2`, two
characters past the start of the first comparator regardless of its
length, so any second comparator occurrence at or after that position is
detected and parsing fails with the multiple-comparators error. -/
theorem c2_amended_detection (test : List Char) (p q : Nat)
    (hb : ∀ i < test.length, ¬ boolOpAt test i)
    (hp : findAnyOf test 0 comparatorPats = some p)
    (hq : comparatorTokenAt test q) (hpq : p + 2 ≤ q) :
    CheckString.parse test = .error .MultipleComparators := by
  have hbnone : (findAnyOf test 0 boolOpPats).isSome = false :=
    findAnyOf_isSome_false boolOpPats_ne hb
  obtain ⟨pq, hpq', hpre⟩ := hq
  have hne : pq ≠ [] := comparatorPats_ne pq hpq'
  have hsecond : (findAnyOf test (p + 2) comparatorPats).isSome :=
    findAnyOf_isSome_of hpq' (strFindFrom_isSome hpre hne hpq)
  unfold CheckString.parse
  rw [if_neg (by simp [hbnone])]
  simp only [hp]
  rw [if_pos hsecond]

/-- Witness for C2's amended theorem: in `a<b<c` the second `<` sits at
position 3, at or beyond `comp_pos + 2 = 3`, and is detected. -/
theorem c2_amended_witness :
    (∀ i < ("a<b<c".toList).length, ¬ boolOpAt ("a<b<c".toList) i)
    ∧ findAnyOf ("a<b<c".toList) 0 comparatorPats = some 1
    ∧ comparatorTokenAt ("a<b<c".toList) 3
    ∧ CheckString.parse ("a<b<c".toList) = .error .MultipleComparators :=
  ⟨by decide, by decide, by decide,
    c2_amended_detection _ 1 3 (by decide) (by decide) (by decide) (by decide)⟩

/-- Counterexample for C6: with no comparator present the left operand is
the raw input string, not its whitespace-normalized form. -/
theorem c6_counterexample :
    CheckString.parse (" a  b".toList)
        = .ok ⟨" a  b".toList, " a  b".toList, [], []⟩
      ∧ compressWs (" a  b".toList) = "a b".toList
      ∧ " a  b".toList ≠ "a b".toList :=
  ⟨by decide, by decide, by decide⟩

/-- C6 as amended: an assertion string containing no comparator token (and
no boolean operator) parses with the left operand equal to the whole input
string taken verbatim, with empty right operand and empty comparator. -/
theorem c6_amended_no_comparator (test : List Char)
    (hb : ∀ i < test.length, ¬ boolOpAt test i)
    (hc : ∀ i < test.length, ¬ comparatorTokenAt test i) :
    CheckString.parse test = .ok ⟨test, test, [], []⟩ := by
  have hbnone : (findAnyOf test 0 boolOpPats).isSome = false :=
    findAnyOf_isSome_false boolOpPats_ne hb
  have hcnone : (findAnyOf test 0 comparatorPats).isSome = false :=
    findAnyOf_isSome_false comparatorPats_ne hc
  have hcnone' : findAnyOf test 0 comparatorPats = none := by
    cases hX : findAnyOf test 0 comparatorPats with
    | none => rfl
    | some j => rw [hX] at hcnone; cases hcnone
  unfold CheckString.parse
  rw [if_neg (by simp [hbnone])]
  simp only [hcnone']

/-- Witness for C6's amended theorem: `isReady()` parses to itself as a
truthiness-only check. -/
theorem c6_witness :
    (∀ i < ("isReady()".toList).length, ¬ boolOpAt ("isReady()".toList) i)
    ∧ (∀ i < ("isReady()".toList).length, ¬ comparatorTokenAt ("isReady()".toList) i)
    ∧ CheckString.parse ("isReady()".toList)
        = .ok ⟨"isReady()".toList, "isReady()".toList, [], []⟩ :=
  ⟨by decide, by decide, c6_amended_no_comparator _ (by decide) (by decide)⟩

/-- C7: parsing `a <= b` captures the two-character comparator `<=`
verbatim (longest match, not mis-split into `<` plus a stray `=`), with
left operand `a` and right operand `b`. -/
theorem c7_longest_match :
    CheckString.parse ("a <= b".toList)
      = .ok ⟨"a <= b".toList, "a".toList, "<=".toList, "b".toList⟩ := by
  decide

/-- C10: when the first comparator's character is the final character of
the assertion string, the bounds-checked `test.at(comp_pos + 1)` access
raises an out-of-range error instead of producing an assertion value. -/
theorem c10_out_of_range (test : List Char) (p : Nat)
    (hb : ∀ i < test.length, ¬ boolOpAt test i)
    (hp : findAnyOf test 0 comparatorPats = some p)
    (hlast : p + 1 = test.length) :
    CheckString.parse test = .error .OutOfRange := by
  have hbnone : (findAnyOf test 0 boolOpPats).isSome = false :=
    findAnyOf_isSome_false boolOpPats_ne hb
  have hsecond : findAnyOf test (p + 2) comparatorPats = none := by
    apply findAnyOf_eq_none
    intro pq hpq
    exact strFindFrom_none_of_lt (by omega)
  unfold CheckString.parse
  rw [if_neg (by simp [hbnone])]
  simp only [hp]
  rw [if_neg (by simp [hsecond]), if_neg (by omega)]

/-- Witness for C10: parsing `x<` raises the out-of-range error. -/
theorem c10_witness :
    findAnyOf ("x<".toList) 0 comparatorPats = some 1
    ∧ CheckString.parse ("x<".toList) = .error .OutOfRange :=
  ⟨by decide, c10_out_of_range _ 1 (by decide) (by decide) (by decide)⟩

/-- C4: on a well-formed code block, `ProcessChecks` outputs exactly the
input text with each `CHECK` invocation replaced by its generated
instrumentation: every plain segment between the cursor and the next
invocation marker is copied verbatim, the trailing text after the last
invocation is copied verbatim, and the cursor advances exactly past each
invocation's closing `");"` delimiter (so the records are collected in
source order with sequence ids from 0). -/
theorem c4_process_checks_verbatim (toCPP : CheckInfo → List Char) (tcid : Nat)
    (L : List (List Char × List Char)) (t : List Char)
    (hseg : SegsOK L t = true) (hpar : ParsesOK L = true) :
    processChecks toCPP tcid (interleave L t)
      = .ok (expectedOut toCPP tcid L t 0, expectedRecs tcid L 0) := by
  unfold processChecks
  have h := processLoop_interleave toCPP tcid L t [] 0 ((interleave L t).length + 1)
    hseg hpar (by have := interleave_length L t; omega)
  simpa using h

/-- Witness for C4: a concrete one-invocation block is rewritten with the
segment and trailing text intact. -/
theorem c4_witness :
    SegsOK demoSegs demoTail = true ∧ ParsesOK demoSegs = true
      ∧ processChecks demoToCPP 3 (interleave demoSegs demoTail)
          = .ok (expectedOut demoToCPP 3 demoSegs demoTail 0, expectedRecs 3 demoSegs 0) :=
  ⟨by decide, by decide,
    c4_process_checks_verbatim demoToCPP 3 demoSegs demoTail (by decide) (by decide)⟩
